import Mathlib

/-!
Verification development for the AI OS memory system repository.

Part 1 models the hybrid retrieval and ranking engine (candidate fusion,
score normalization, temporal decay, MMR diversity re-ranking, keyword
index rebuild).  The engine's implementation file is not part of the
sources at hand, so these definitions are modelled from the spec's own
description of the algorithms (spec sections 4.1 and 4.3 to 4.6); scores are
real numbers.

Part 2 embeds the installer `src/aios/setup_memory.py` directly: file
contents are lists of characters, the world is the set of files and
directories the installer touches, and subprocess launches are logged as
explicit effects.
-/

namespace Engine

/-- Modelled from the spec: a raw hit from one backend (vector search or the
keyword index): id, text, higher-is-better score, and derived age in days. -/
structure Hit where
  id : Nat
  text : String
  score : ℝ
  age : ℝ

/-- Modelled from the spec: an engine-internal candidate carrying both raw
scores, the normalized scores, the fused score and the decayed score. -/
structure Cand where
  id : Nat
  text : String
  vec : ℝ
  bm25 : ℝ
  age : ℝ
  nVec : ℝ
  nB : ℝ
  fused : ℝ
  decayed : ℝ

noncomputable instance : Inhabited Cand := ⟨⟨0, "", 0, 0, 0, 0, 0, 0, 0⟩⟩

/-- Candidate created from a vector hit (bm25 defaulted to 0). -/
def candOfV (h : Hit) : Cand :=
  ⟨h.id, h.text, h.score, 0, h.age, 0, 0, 0, 0⟩

/-- Candidate created from a keyword hit (vector score defaulted to 0). -/
def candOfK (h : Hit) : Cand :=
  ⟨h.id, h.text, 0, h.score, h.age, 0, 0, 0, 0⟩

/-- Merge one vector hit into the accumulator, keyed by id. -/
def addV (acc : List Cand) (h : Hit) : List Cand :=
  if acc.any (fun c => c.id == h.id) then
    acc.map (fun c => if c.id == h.id then { c with vec := h.score } else c)
  else
    acc ++ [candOfV h]

/-- Merge one keyword hit into the accumulator, keyed by id: a candidate
already present keeps its text and vector score and gains the bm25 score. -/
def addK (acc : List Cand) (h : Hit) : List Cand :=
  if acc.any (fun c => c.id == h.id) then
    acc.map (fun c => if c.id == h.id then { c with bm25 := h.score } else c)
  else
    acc ++ [candOfK h]

/-- Modelled from the spec: merge the vector and keyword candidate lists by
id; a candidate appearing in both lists carries both scores, a candidate
appearing in only one has the other score defaulted to 0. -/
def mergeCands (vhits khits : List Hit) : List Cand :=
  khits.foldl addK (vhits.foldl addV [])

/-- The ids of a candidate list. -/
def idsOf (cs : List Cand) : List Nat :=
  cs.map (fun c => c.id)

/-- Maximum of a list of reals (0 on the empty list, which the engine never
queries). -/
noncomputable def listMax : List ℝ → ℝ
  | [] => 0
  | x :: xs => xs.foldr max x

/-- Minimum of a list of reals (0 on the empty list). -/
noncomputable def listMin : List ℝ → ℝ
  | [] => 0
  | x :: xs => xs.foldr min x

/-- Minimum raw vector score over a candidate set. -/
noncomputable def vecMin (cs : List Cand) : ℝ := listMin (cs.map (fun c => c.vec))

/-- Maximum raw vector score over a candidate set. -/
noncomputable def vecMax (cs : List Cand) : ℝ := listMax (cs.map (fun c => c.vec))

/-- Maximum raw bm25 score over a candidate set. -/
noncomputable def bmMax (cs : List Cand) : ℝ := listMax (cs.map (fun c => c.bm25))

/-- Modelled from the spec: normalize the vector scores across the merged
candidate set with min-max scaling (0 for all when max = min) and the bm25
scores by dividing by the maximum raw bm25 score (0 when that maximum is
not positive, in particular when there are no keyword hits). -/
noncomputable def normalizeCands (cs : List Cand) : List Cand :=
  cs.map (fun c =>
    { c with
      nVec := if vecMin cs < vecMax cs then (c.vec - vecMin cs) / (vecMax cs - vecMin cs) else 0
      nB := if 0 < bmMax cs then c.bm25 / bmMax cs else 0 })

/-- Engine parameters: result limit, score weights, half-life in days and
the MMR tradeoff parameter. -/
structure Params where
  limit : Nat
  vw : ℝ
  tw : ℝ
  halfLife : ℝ
  mmrLambda : ℝ

/-- Modelled from the spec: fused score is the weighted combination of the
normalized vector and lexical scores. -/
noncomputable def fuseCands (p : Params) (cs : List Cand) : List Cand :=
  cs.map (fun c => { c with fused := p.vw * c.nVec + p.tw * c.nB })

/-- Modelled from the spec: decay constant lambda = ln 2 / half_life_days. -/
noncomputable def lamOf (halfLife : ℝ) : ℝ := Real.log 2 / halfLife

/-- Modelled from the spec: decayed_score = fused_score * exp (-(lambda * age_days)). -/
noncomputable def decayedScore (fused lam age : ℝ) : ℝ :=
  fused * Real.exp (-(lam * age))

/-- Modelled from the spec: the temporal decay stage rewrites every
candidate's decayed score from its fused score and age. -/
noncomputable def decayCands (p : Params) (cs : List Cand) : List Cand :=
  cs.map (fun c => { c with decayed := decayedScore c.fused (lamOf p.halfLife) c.age })

/-- Descending order on decayed scores, used to sort candidates before the
diversity re-ranker. -/
def decGe (a b : Cand) : Prop := b.decayed ≤ a.decayed

noncomputable instance : DecidableRel decGe := fun _ _ => Real.decidableLE _ _

instance : IsTotal Cand decGe := ⟨fun a b => le_total b.decayed a.decayed⟩

instance : IsTrans Cand decGe := ⟨fun _ _ _ h1 h2 => le_trans h2 h1⟩

/-- Case-folded word-token set of a candidate's text: lower-case the text,
split on whitespace, and collect the non-empty tokens. -/
def tokensOf (t : String) : Finset String :=
  ((t.toLower.split Char.isWhitespace).filter (fun w => w ≠ "")).toFinset

/-- Modelled from the spec: Jaccard similarity of the two texts' case-folded
word-token sets (0 when both are empty). -/
noncomputable def jaccard (a b : String) : ℝ :=
  if (tokensOf a ∪ tokensOf b).card = 0 then 0
  else (tokensOf a ∩ tokensOf b).card / ((tokensOf a ∪ tokensOf b).card : ℝ)

/-- Maximum Jaccard similarity of a candidate to any already-selected item
(0 when nothing is selected yet). -/
noncomputable def maxSim (c : Cand) (sel : List Cand) : ℝ :=
  listMax (sel.map (fun s => jaccard c.text s.text))

/-- Modelled from the spec: the MMR objective of candidate `c` against the
already-selected list `sel`. -/
noncomputable def mmrScore (lam : ℝ) (sel : List Cand) (c : Cand) : ℝ :=
  lam * c.decayed - (1 - lam) * maxSim c sel

/-- Extract the first element attaining the maximum of `f` from a list,
returning it together with the remaining pool (ties keep the earlier
element, scanning left to right). -/
noncomputable def extractMax (f : Cand → ℝ) : List Cand → Option (Cand × List Cand)
  | [] => none
  | c :: cs =>
    match extractMax f cs with
    | none => some (c, [])
    | some (b, rest) => if f c < f b then some (b, c :: rest) else some (c, cs)

/-- Modelled from the spec: the greedy MMR loop; each round extracts from
the pool the first candidate maximizing the MMR objective against the
already-selected list, until `n` items are selected or the pool is empty. -/
noncomputable def mmrGo (lam : ℝ) : Nat → List Cand → List Cand → List Cand
  | 0, _, _ => []
  | Nat.succ n, sel, pool =>
    match extractMax (mmrScore lam sel) pool with
    | none => []
    | some (b, rest) => b :: mmrGo lam n (sel ++ [b]) rest

/-- Modelled from the spec: the diversity re-ranker picks the
highest-decayed candidate (the head of the sorted input) first, then runs
the greedy MMR loop for the remaining picks. -/
noncomputable def mmrSelect (lam : ℝ) (limit : Nat) (pool : List Cand) : List Cand :=
  match limit, pool with
  | 0, _ => []
  | _, [] => []
  | Nat.succ n, c :: cs => c :: mmrGo lam n [c] cs

/-- The candidate list a vector response contributes: the hits on success,
the empty list when the vector backend failed. -/
def vhitsOf (vres : Except String (List Hit)) : List Hit :=
  match vres with
  | Except.ok l => l
  | Except.error _ => []

/-- Modelled from the spec: the search orchestrator; merge the two candidate
lists, return empty immediately when the merge is empty, otherwise
normalize, fuse, decay, sort by decayed score descending and diversity
re-rank down to `limit` results.  A failed vector fetch is treated as an
empty vector list, never as a query failure. -/
noncomputable def searchPipeline (p : Params) (vres : Except String (List Hit))
    (khits : List Hit) : List Cand :=
  let merged := mergeCands (vhitsOf vres) khits
  if merged.isEmpty then []
  else
    mmrSelect p.mmrLambda p.limit
      (List.insertionSort decGe (decayCands p (fuseCands p (normalizeCands merged))))

/-! ### Keyword index (spec section 4.1) -/

/-- An entry of the keyword index: a memory id and its text. -/
structure IdxEntry where
  id : Nat
  text : String
deriving DecidableEq

/-- Upsert one entry: remove any prior entry for the id, insert the new one. -/
def upsertIdx (idx : List IdxEntry) (e : IdxEntry) : List IdxEntry :=
  (idx.filter (fun x => x.id ≠ e.id)) ++ [e]

/-- Modelled from the spec: `rebuild` reads the authoritative log's rows
(latest non-deleted state per id), clears the index, and re-inserts all
entries; the prior index contents are discarded entirely. -/
def rebuildIdx (rows : List IdxEntry) (_idx : List IdxEntry) : List IdxEntry :=
  rows.foldl upsertIdx []

/-- Modelled from the spec: `rebuild` returns a count of indexed entries. -/
def rebuildCount (rows idx : List IdxEntry) : Nat :=
  (rebuildIdx rows idx).length

/-- Lexical overlap score of an index entry against a query: the number of
shared case-folded word tokens. -/
def lexScore (q : String) (e : IdxEntry) : Nat :=
  (tokensOf q ∩ tokensOf e.text).card

/-- Modelled from the spec: ranked lexical query over the index; entries
with a positive overlap score, best scores first (stable within ties),
truncated to the limit. -/
def queryIdx (idx : List IdxEntry) (q : String) (lim : Nat) : List IdxEntry :=
  ((idx.filter (fun e => 0 < lexScore q e)).insertionSort
      (fun a b => lexScore q b ≤ lexScore q a)).take lim

/-! ### Declarative characterizations used by the claims -/

/-- `b` is the first element of `pool` attaining the maximum of `f`, and
`rest` is the pool without it: every element of `pool` scores at most
`f b`, and every element strictly before `b` scores strictly less (so ties
break in favor of the first-encountered element). -/
def MaxFirst (f : Cand → ℝ) (pool : List Cand) (b : Cand) (rest : List Cand) : Prop :=
  ∃ l1 l2, pool = l1 ++ b :: l2 ∧ rest = l1 ++ l2 ∧
    (∀ y ∈ pool, f y ≤ f b) ∧ (∀ y ∈ l1, f y < f b)

/-- The greedy MMR procedure as the spec words it: with fuel `n` and the
already-selected list `sel`, repeatedly move the first-encountered
candidate maximizing the MMR objective from the pool to the output, until
the fuel or the pool is exhausted. -/
inductive GreedyMMR (lam : ℝ) : Nat → List Cand → List Cand → List Cand → Prop
  | stop (sel pool) : GreedyMMR lam 0 sel pool []
  | exhausted (n sel) : GreedyMMR lam n sel [] []
  | pick (n sel pool b rest out) :
      MaxFirst (mmrScore lam sel) pool b rest →
      GreedyMMR lam n (sel ++ [b]) rest out →
      GreedyMMR lam (n + 1) sel pool (b :: out)

/-- The diversity re-ranker's contract on a pool sorted by decayed score
descending: either the pool or the limit is exhausted and the output is
empty, or the output starts with the pool's head — a candidate of maximal
decayed score — and continues with a greedy MMR run over the rest. -/
def SelSpec (lam : ℝ) (limit : Nat) (pool out : List Cand) : Prop :=
  ((pool = [] ∨ limit = 0) ∧ out = []) ∨
  (∃ n c cs rest, limit = n + 1 ∧ pool = c :: cs ∧ out = c :: rest ∧
     (∀ y ∈ pool, y.decayed ≤ c.decayed) ∧
     GreedyMMR lam n [c] cs rest)

/-- The decay-monotonicity claim as the spec states it: for identical
non-negative fused scores and a non-negative decay constant, a larger age
gives a decayed score at most the other's, with equality only when the
ages are equal or the decay constant is zero. -/
def decayMonotoneClaim : Prop :=
  ∀ f lam a₁ a₂ : ℝ, 0 ≤ f → 0 ≤ lam → a₁ < a₂ →
    decayedScore f lam a₂ ≤ decayedScore f lam a₁ ∧
    (decayedScore f lam a₂ = decayedScore f lam a₁ → a₁ = a₂ ∨ lam = 0)

end Engine

namespace Setup

/-!
Embedding of `src/aios/setup_memory.py`.  File contents are lists of
characters; the world records the contents of the three files the installer
touches (`.env`, `mem0_config.yaml`, `settings.local.json`, absent files
are `none`), the set of existing directories, and the script files present
in the scripts directory.  Subprocess launches are logged as effects.
JSON parsing and serialization (`json.loads` / `json.dumps`) and the
hook-insertion update are abstracted as parameters.
-/

/-- The whitespace characters stripped by Python's `str.strip`. -/
def isPySpace (c : Char) : Bool :=
  c = ' ' || c = '\t' || c = '\n' || c = '\r' || c = '\x0b' || c = '\x0c'

/-- Python `str.strip`: drop leading and trailing whitespace. -/
def trimL (l : List Char) : List Char :=
  ((l.dropWhile isPySpace).reverse.dropWhile isPySpace).reverse

/-- Python `str.startswith`: `pat` is a prefix of `s`. -/
def startsWithL (s pat : List Char) : Bool :=
  match s, pat with
  | _, [] => true
  | [], _ :: _ => false
  | c :: t, p :: ps => c = p && startsWithL t ps

/-- Python `in` on strings: `pat` occurs as a contiguous substring of `hay`. -/
def containsL (hay pat : List Char) : Bool :=
  match hay with
  | [] => pat.isEmpty
  | _ :: t => startsWithL hay pat || containsL t pat

/-- Helper for `splitLines`: accumulates the current line in reverse. -/
def splitLinesAux : List Char → List Char → List (List Char)
  | [], acc => [acc.reverse]
  | c :: rest, acc =>
    if c = '\n' then
      acc.reverse :: (if rest.isEmpty then [] else splitLinesAux rest [])
    else splitLinesAux rest (c :: acc)

/-- Python `str.splitlines` restricted to newline separators: splits at
each newline and produces no trailing empty line. -/
def splitLines (cs : List Char) : List (List Char) :=
  if cs.isEmpty then [] else splitLinesAux cs []

/-- Python `"\n".join`. -/
def joinNL : List (List Char) → List Char
  | [] => []
  | [l] => l
  | l :: ls => l ++ '\n' :: joinNL ls

/-- Python `line.split("=", 1)[1]`: everything after the first `=`. -/
def afterEq (l : List Char) : List Char :=
  (l.dropWhile (fun c => c ≠ '=')).drop 1

/-- Python `str.replace`: replace every non-overlapping occurrence of
`pat`, scanning left to right. -/
def replaceAll (pat rep : List Char) : List Char → List Char
  | [] => []
  | c :: t =>
    if h : pat ≠ [] ∧ startsWithL (c :: t) pat = true then
      rep ++ replaceAll pat rep ((c :: t).drop pat.length)
    else
      c :: replaceAll pat rep t
termination_by s => s.length
decreasing_by
  · simp only [List.length_drop, List.length_cons]
    have : pat.length ≠ 0 := fun hn => h.1 (List.eq_nil_of_length_eq_zero hn)
    omega
  · simp

/-- The world the installer acts on. -/
structure World where
  envFile : Option (List Char)
  configFile : Option (List Char)
  settingsFile : Option (List Char)
  dirs : List String
  scriptFiles : List String
deriving DecidableEq

/-- Logged side effects: subprocess launches. -/
inductive Eff where
  | pipInstall
  | runRebuild
deriving DecidableEq

/-- Result of one installation step: success flag, new world, effects. -/
def StepRes := Bool × World × List Eff

/-- `REQUIRED_ENV_VARS`. -/
def requiredEnvVars : List (List Char) :=
  ["OPENAI_API_KEY".data, "PINECONE_API_KEY".data]

/-- `REQUIRED_DIRS`. -/
def requiredDirs : List String :=
  ["data/capture_markers", "memory/logs", "logs"]

/-- The script files `check_scripts_exist` requires. -/
def requiredScripts : List String :=
  ["mem0_client.py", "auto_capture.py", "smart_search.py",
   "mem0_search.py", "mem0_add.py", "mem0_list.py",
   "mem0_delete.py", "mem0_sync_md.py", "daily_log.py"]

/-- `check_python_version`: Python 3.9 or newer. -/
def pyVerOk (major minor : Nat) : Bool :=
  !(major < 3 || (major = 3 && minor < 9))

/-- `check_scripts_exist`: every required script file is present. -/
def checkScriptsExist (w : World) : Bool :=
  requiredScripts.all (fun f => w.scriptFiles.contains f)

/-- The placeholder value `your-<var lowercased, underscores to dashes>`
that `check_env_vars` rejects. -/
def placeholderOf (v : List Char) : List Char :=
  "your-".data ++ v.map (fun c => if c = '_' then '-' else c.toLower)

/-- One variable's test inside `check_env_vars`: some line, stripped,
starts with `VAR=`, is not a comment, and carries a non-empty,
non-placeholder value. -/
def envVarOk (content v : List Char) : Bool :=
  (splitLines content).any (fun l0 =>
    let l := trimL l0
    startsWithL l (v ++ ['=']) && !startsWithL l ['#'] &&
      (let val := trimL (afterEq l)
       !val.isEmpty && val ≠ placeholderOf v))

/-- `check_env_vars`: `.env` exists and every required key is set. -/
def checkEnvVars (w : World) : Bool :=
  match w.envFile with
  | none => false
  | some content => requiredEnvVars.all (envVarOk content)

/-- `install_packages`: dry run only prints; otherwise launches pip, whose
success is the step's outcome. -/
def installPackages (pipOk : Bool) (dryRun : Bool) (w : World) : StepRes :=
  if dryRun then (true, w, [])
  else (pipOk, w, [Eff.pipInstall])

/-- `create_directories`: dry run only prints; otherwise creates every
required directory (`mkdir -p` semantics), always succeeding. -/
def createDirectories (dryRun : Bool) (w : World) : StepRes :=
  if dryRun then (true, w, [])
  else
    let ds := requiredDirs.foldl
      (fun ds d => if ds.contains d then ds else ds ++ [d]) w.dirs
    (true, { w with dirs := ds }, [])

/-- The line test of `set_user_id`: the stripped line starts with
`MEM0_USER_ID=` or `# MEM0_USER_ID=`. -/
def isUserIdLine (l : List Char) : Bool :=
  startsWithL (trimL l) "MEM0_USER_ID=".data ||
  startsWithL (trimL l) "# MEM0_USER_ID=".data

/-- The replacement line `MEM0_USER_ID=<user_id>`. -/
def userIdAssign (uid : List Char) : List Char :=
  "MEM0_USER_ID=".data ++ uid

/-- The comment line inserted before an appended assignment. -/
def userIdComment : List Char :=
  "# mem0 user ID (set by setup_memory.py)".data

/-- The new `.env` content `set_user_id` computes: every matching line is
replaced by the assignment; when no line matched, a blank-prefixed comment
and the assignment are appended; the lines are re-joined with a trailing
newline. -/
def setUserIdContent (content uid : List Char) : List Char :=
  let lines := splitLines content
  let newLines :=
    if lines.any isUserIdLine then
      lines.map (fun l => if isUserIdLine l then userIdAssign uid else l)
    else
      lines ++ ['\n' :: userIdComment, userIdAssign uid]
  joinNL newLines ++ ['\n']

/-- `set_user_id`: fails when `.env` is absent; dry run only prints;
otherwise rewrites `.env`. -/
def setUserId (uid : List Char) (dryRun : Bool) (w : World) : StepRes :=
  match w.envFile with
  | none => (false, w, [])
  | some content =>
    if dryRun then (true, w, [])
    else (true, { w with envFile := some (setUserIdContent content uid) }, [])

/-- The pattern `collection_name: "ai-os-memory"` replaced by
`update_pinecone_index`. -/
def collectionPat : List Char :=
  "collection_name: \"ai-os-memory\"".data

/-- The replacement `collection_name: "<index_name>"`. -/
def collectionPatOf (idx : List Char) : List Char :=
  "collection_name: \"".data ++ idx ++ ['\"']

/-- `update_pinecone_index`: fails when the config is absent; skips when
the replacement changed nothing and the default name is gone; dry run only
prints; otherwise writes the replaced content. -/
def updatePineconeIndex (idx : List Char) (dryRun : Bool) (w : World) : StepRes :=
  match w.configFile with
  | none => (false, w, [])
  | some content =>
    let nc := replaceAll collectionPat (collectionPatOf idx) content
    if nc = content ∧ containsL content "ai-os-memory".data = false then (true, w, [])
    else if dryRun then (true, w, [])
    else (true, { w with configFile := some nc }, [])

/-- The basic Stop-hook command string. -/
def basicCmd : List Char :=
  "python3 hooks/memory_capture.py".data

/-- The advanced Stop-hook command string. -/
def advancedCmd : List Char :=
  "python3 .claude/skills/memory/scripts/auto_capture.py".data

/-- The `"async": true` fragment rewritten to add a timeout. -/
def asyncPat : List Char :=
  "\"async\": true".data

/-- The replacement adding `"timeout": 60` before the async flag. -/
def timeoutAsyncPat : List Char :=
  "\"timeout\": 60,\n            \"async\": true".data

/-- `update_stop_hook`: fails when settings are absent; succeeds without
change when the advanced command is already present; when the basic command
is present, replaces it (also splicing in a timeout when none is present)
and writes unless dry run; otherwise parses the settings as JSON (abstract
`parse`), adds the Stop hook (abstract `addHook`), and writes the dump
unless dry run; a parse failure fails the step. -/
def updateStopHook {σ : Type} (parse : List Char → Option σ) (dump : σ → List Char)
    (addHook : σ → σ) (dryRun : Bool) (w : World) : StepRes :=
  match w.settingsFile with
  | none => (false, w, [])
  | some content =>
    if containsL content advancedCmd then (true, w, [])
    else if containsL content basicCmd then
      let nc := replaceAll basicCmd advancedCmd content
      let nc2 := if containsL nc "\"timeout\"".data then nc
                 else replaceAll asyncPat timeoutAsyncPat nc
      if dryRun then (true, w, [])
      else (true, { w with settingsFile := some nc2 }, [])
    else
      match parse content with
      | none => (false, w, [])
      | some s =>
        if dryRun then (true, w, [])
        else (true, { w with settingsFile := some (dump (addHook s) ++ ['\n']) }, [])

/-- `rebuild_fts_index`: fails when `smart_search.py` is absent; dry run
only prints; otherwise launches the rebuild subprocess and succeeds for
any exit code (`rc` is `some code`), failing only when the launch raised
(`rc = none`). -/
def rebuildFtsIndex (rc : Option Int) (dryRun : Bool) (w : World) : StepRes :=
  if !(w.scriptFiles.contains "smart_search.py") then (false, w, [])
  else if dryRun then (true, w, [])
  else
    match rc with
    | none => (false, w, [Eff.runRebuild])
    | some _ => (true, w, [Eff.runRebuild])

/-- Command-line arguments of the installer. -/
structure Args where
  userId : Option (List Char)
  pineconeIndex : List Char
  dryRun : Bool
  skipPackages : Bool

/-- `main`: the pre-flight checks in order (Python version, script files,
env keys), each failure exiting with status 1 before any installation
step; then user-id resolution (interactive `stdin` when not supplied and
not a dry run); then the six installation steps in order, with exit status
0 exactly when all steps succeeded.  Returns the exit status, the final
world, and the logged subprocess effects. -/
def mainRun {σ : Type} (ver : Nat × Nat) (args : Args) (stdin : List Char)
    (pipOk : Bool) (rc : Option Int) (parse : List Char → Option σ)
    (dump : σ → List Char) (addHook : σ → σ) (w : World) :
    Nat × World × List Eff :=
  if !pyVerOk ver.1 ver.2 then (1, w, [])
  else if !checkScriptsExist w then (1, w, [])
  else if !checkEnvVars w then (1, w, [])
  else
    let uid? :=
      match args.userId with
      | some u => some u
      | none =>
        if !args.dryRun then
          if (trimL stdin).isEmpty then none else some (trimL stdin)
        else some "example_user".data
    match uid? with
    | none => (1, w, [])
    | some uid =>
      let r1 := if args.skipPackages then (true, w, ([] : List Eff))
                else installPackages pipOk args.dryRun w
      let r2 := createDirectories args.dryRun r1.2.1
      let r3 := setUserId uid args.dryRun r2.2.1
      let r4 := updatePineconeIndex args.pineconeIndex args.dryRun r3.2.1
      let r5 := updateStopHook parse dump addHook args.dryRun r4.2.1
      let r6 := rebuildFtsIndex rc args.dryRun r5.2.1
      ((if r1.1 && r2.1 && r3.1 && r4.1 && r5.1 && r6.1 then 0 else 1),
       r6.2.1,
       r1.2.2 ++ r2.2.2 ++ r3.2.2 ++ r4.2.2 ++ r5.2.2 ++ r6.2.2)

end Setup

namespace Engine

lemma base_le_foldr_max (x : ℝ) (xs : List ℝ) : x ≤ xs.foldr max x := by
  induction xs with
  | nil => exact le_rfl
  | cons a t ih => exact le_max_of_le_right ih

lemma foldr_min_le_base (x : ℝ) (xs : List ℝ) : xs.foldr min x ≤ x := by
  induction xs with
  | nil => exact le_rfl
  | cons a t ih => exact min_le_of_right_le ih

lemma mem_le_foldr_max {y x : ℝ} {xs : List ℝ} (h : y ∈ x :: xs) :
    y ≤ xs.foldr max x := by
  induction xs generalizing x with
  | nil => simp only [List.mem_cons, List.not_mem_nil, or_false] at h; simp [h]
  | cons a t ih =>
    rcases List.mem_cons.1 h with rfl | h2
    · exact le_max_of_le_right (base_le_foldr_max y t)
    · rcases List.mem_cons.1 h2 with rfl | h3
      · exact le_max_left _ _
      · exact le_max_of_le_right (ih (List.mem_cons_of_mem _ h3))

lemma foldr_min_le_mem {y x : ℝ} {xs : List ℝ} (h : y ∈ x :: xs) :
    xs.foldr min x ≤ y := by
  induction xs generalizing x with
  | nil => simp only [List.mem_cons, List.not_mem_nil, or_false] at h; simp [h]
  | cons a t ih =>
    rcases List.mem_cons.1 h with rfl | h2
    · exact min_le_of_right_le (foldr_min_le_base y t)
    · rcases List.mem_cons.1 h2 with rfl | h3
      · exact min_le_left _ _
      · exact min_le_of_right_le (ih (List.mem_cons_of_mem _ h3))

lemma le_listMax {y : ℝ} {l : List ℝ} (h : y ∈ l) : y ≤ listMax l := by
  cases l with
  | nil => cases h
  | cons x xs => exact mem_le_foldr_max h

lemma listMin_le {y : ℝ} {l : List ℝ} (h : y ∈ l) : listMin l ≤ y := by
  cases l with
  | nil => cases h
  | cons x xs => exact foldr_min_le_mem h

/-- C2: for every candidate of the normalized set, the normalized vector
score is the min-max scaling `(x - min) / (max - min)` of its raw vector
score over the set (0 for all when max = min), the normalized bm25 score is
the raw bm25 score divided by the set's maximum raw bm25 score (0 when that
maximum is not positive, in particular when there are no keyword hits), and
both normalized scores lie in `[0, 1]` (the raw bm25 scores being
non-negative, as the keyword index produces them). -/
theorem normalization_spec (cs : List Cand) (_hne : cs ≠ [])
    (hbm : ∀ c ∈ cs, 0 ≤ c.bm25) :
    ∀ c ∈ normalizeCands cs,
      (c.nVec = if vecMin cs < vecMax cs
                then (c.vec - vecMin cs) / (vecMax cs - vecMin cs) else 0) ∧
      (c.nB = if 0 < bmMax cs then c.bm25 / bmMax cs else 0) ∧
      0 ≤ c.nVec ∧ c.nVec ≤ 1 ∧ 0 ≤ c.nB ∧ c.nB ≤ 1 := by
  intro c hc
  rw [normalizeCands, List.mem_map] at hc
  obtain ⟨c0, hc0, rfl⟩ := hc
  have hvmem : c0.vec ∈ cs.map (fun c => c.vec) := List.mem_map_of_mem _ hc0
  have hbmem : c0.bm25 ∈ cs.map (fun c => c.bm25) := List.mem_map_of_mem _ hc0
  have hvmin : vecMin cs ≤ c0.vec := listMin_le hvmem
  have hvmax : c0.vec ≤ vecMax cs := le_listMax hvmem
  have hbmax : c0.bm25 ≤ bmMax cs := le_listMax hbmem
  refine ⟨rfl, rfl, ?_, ?_, ?_, ?_⟩
  · by_cases h : vecMin cs < vecMax cs
    · simp only [h, if_true]
      exact div_nonneg (sub_nonneg.2 hvmin) (sub_nonneg.2 h.le)
    · simp [h]
  · by_cases h : vecMin cs < vecMax cs
    · simp only [h, if_true]
      exact (div_le_one (sub_pos.2 h)).2 (sub_le_sub_right hvmax _)
    · simp [h]
  · by_cases h : 0 < bmMax cs
    · simp only [h, if_true]
      exact div_nonneg (hbm c0 hc0) h.le
    · simp [h]
  · by_cases h : 0 < bmMax cs
    · simp only [h, if_true]
      exact (div_le_one h).2 hbmax
    · simp [h]

/-- C2 witness: the hypotheses hold at a concrete one-candidate set, whose
normalized scores lie in `[0, 1]`. -/
theorem normalization_spec_witness :
    0 ≤ (normalizeCands [⟨1, "a", 1, 2, 0, 0, 0, 0, 0⟩]).headI.nVec ∧
    (normalizeCands [⟨1, "a", 1, 2, 0, 0, 0, 0, 0⟩]).headI.nVec ≤ 1 ∧
    0 ≤ (normalizeCands [⟨1, "a", 1, 2, 0, 0, 0, 0, 0⟩]).headI.nB ∧
    (normalizeCands [⟨1, "a", 1, 2, 0, 0, 0, 0, 0⟩]).headI.nB ≤ 1 := by
  have h := normalization_spec [⟨1, "a", 1, 2, 0, 0, 0, 0, 0⟩] (by simp)
    (by intro c hc; simp only [List.mem_singleton] at hc; subst hc; norm_num)
  have hm : (normalizeCands [⟨1, "a", 1, 2, 0, 0, 0, 0, 0⟩]).headI ∈
      normalizeCands [⟨1, "a", 1, 2, 0, 0, 0, 0, 0⟩] := by
    simp [normalizeCands]
  obtain ⟨-, -, h3, h4, h5, h6⟩ := h _ hm
  exact ⟨h3, h4, h5, h6⟩

/-- C3: the decay stage sets every candidate's decayed score to
`fused_score * exp (-(lambda * age_days))` with `lambda = ln 2 /
half_life_days`, and at one half-life the decayed score is exactly half the
fused score. -/
theorem decay_spec (p : Params) (cs : List Cand) (f : ℝ) (hh : 0 < p.halfLife) :
    (∀ c ∈ decayCands p cs,
        c.decayed = c.fused * Real.exp (-(lamOf p.halfLife * c.age))) ∧
    decayedScore f (lamOf p.halfLife) p.halfLife = (1 / 2) * f := by
  constructor
  · intro c hc
    rw [decayCands, List.mem_map] at hc
    obtain ⟨c0, _, rfl⟩ := hc
    rfl
  · rw [decayedScore, lamOf, div_mul_cancel₀ _ hh.ne', Real.exp_neg,
      Real.exp_log two_pos]
    ring

/-- C3 witness: the hypothesis holds at the default half-life of 30 days. -/
theorem decay_spec_witness :
    decayedScore 1 (lamOf (30 : ℝ)) 30 = (1 / 2) * 1 :=
  (decay_spec ⟨5, 0.7, 0.3, 30, 0.7⟩ [] 1 (by norm_num)).2

/-- C6 counterexample: at fused score 0, ages 0 and 30 and the positive
decay constant of a 30-day half-life, the decayed scores are equal even
though the ages differ and the constant is non-zero. -/
theorem decay_monotone_claim_false : ¬ decayMonotoneClaim := by
  intro h
  have h30 : (0 : ℝ) < 30 := by norm_num
  have hlam : 0 < lamOf 30 :=
    div_pos (Real.log_pos (by norm_num)) h30
  have heq : decayedScore 0 (lamOf 30) 30 = decayedScore 0 (lamOf 30) 0 := by
    simp [decayedScore]
  rcases (h 0 (lamOf 30) 0 30 le_rfl hlam.le h30).2 heq with h0 | h0
  · norm_num at h0
  · exact hlam.ne' h0

/-- C6 amended: for identical non-negative fused scores and a non-negative
decay constant, a larger age gives a decayed score at most the other's,
with equality only when the ages are equal, the decay constant is zero, or
the fused score is zero. -/
theorem decay_monotone_amended (f lam a₁ a₂ : ℝ) (hf : 0 ≤ f) (hlam : 0 ≤ lam)
    (h12 : a₁ ≤ a₂) :
    decayedScore f lam a₂ ≤ decayedScore f lam a₁ ∧
    (decayedScore f lam a₂ = decayedScore f lam a₁ →
      a₁ = a₂ ∨ lam = 0 ∨ f = 0) := by
  constructor
  · apply mul_le_mul_of_nonneg_left _ hf
    apply Real.exp_le_exp.2
    apply neg_le_neg
    exact mul_le_mul_of_nonneg_left h12 hlam
  · intro he
    by_cases hf0 : f = 0
    · exact Or.inr (Or.inr hf0)
    · have hexp : Real.exp (-(lam * a₂)) = Real.exp (-(lam * a₁)) := by
        have := he
        rw [decayedScore, decayedScore] at this
        exact mul_left_cancel₀ hf0 this
      have hmul : lam * a₂ = lam * a₁ := by
        have := Real.exp_eq_exp.1 hexp
        linarith
      by_cases hl : lam = 0
      · exact Or.inr (Or.inl hl)
      · exact Or.inl (mul_left_cancel₀ hl hmul).symm

/-- C6 witness: the amended theorem applied at fused score 1, decay
constant 1, ages 0 and 1. -/
theorem decay_monotone_amended_witness :
    decayedScore 1 1 1 ≤ decayedScore 1 1 0 :=
  (decay_monotone_amended 1 1 0 1 (by norm_num) (by norm_num) (by norm_num)).1

/-! ### Merged candidate sets carry pairwise-distinct ids -/

lemma nodup_ids_addK (acc : List Cand) (h : Hit) (hnd : (idsOf acc).Nodup) :
    (idsOf (addK acc h)).Nodup := by
  rw [addK]
  by_cases hany : acc.any (fun c => c.id == h.id)
  · rw [if_pos hany]
    have heq : idsOf (acc.map fun c =>
        if c.id == h.id then { c with bm25 := h.score } else c) = idsOf acc := by
      simp only [idsOf, List.map_map]
      congr 1
      funext c
      by_cases hc : c.id = h.id <;> simp [Function.comp, hc]
    rw [heq]; exact hnd
  · rw [if_neg hany]
    have hnotin : h.id ∉ idsOf acc := by
      intro hmem
      rw [idsOf, List.mem_map] at hmem
      obtain ⟨c, hc, hcid⟩ := hmem
      exact hany (List.any_eq_true.2 ⟨c, hc, by simp [hcid]⟩)
    simp only [idsOf, List.map_append]
    rw [List.nodup_append]
    refine ⟨hnd, by simp, ?_⟩
    intro x hx hx2
    have hxe : x = h.id := by simpa [candOfK] using hx2
    exact hnotin (hxe ▸ hx)

lemma nodup_ids_addV (acc : List Cand) (h : Hit) (hnd : (idsOf acc).Nodup) :
    (idsOf (addV acc h)).Nodup := by
  rw [addV]
  by_cases hany : acc.any (fun c => c.id == h.id)
  · rw [if_pos hany]
    have heq : idsOf (acc.map fun c =>
        if c.id == h.id then { c with vec := h.score } else c) = idsOf acc := by
      simp only [idsOf, List.map_map]
      congr 1
      funext c
      by_cases hc : c.id = h.id <;> simp [Function.comp, hc]
    rw [heq]; exact hnd
  · rw [if_neg hany]
    have hnotin : h.id ∉ idsOf acc := by
      intro hmem
      rw [idsOf, List.mem_map] at hmem
      obtain ⟨c, hc, hcid⟩ := hmem
      exact hany (List.any_eq_true.2 ⟨c, hc, by simp [hcid]⟩)
    simp only [idsOf, List.map_append]
    rw [List.nodup_append]
    refine ⟨hnd, by simp, ?_⟩
    intro x hx hx2
    have hxe : x = h.id := by simpa [candOfV] using hx2
    exact hnotin (hxe ▸ hx)

lemma nodup_ids_foldl_addK (ks : List Hit) :
    ∀ acc, (idsOf acc).Nodup → (idsOf (ks.foldl addK acc)).Nodup := by
  induction ks with
  | nil => intro acc hacc; exact hacc
  | cons k ks ih => intro acc hacc; exact ih _ (nodup_ids_addK acc k hacc)

lemma nodup_ids_foldl_addV (vs : List Hit) :
    ∀ acc, (idsOf acc).Nodup → (idsOf (vs.foldl addV acc)).Nodup := by
  induction vs with
  | nil => intro acc hacc; exact hacc
  | cons v vs ih => intro acc hacc; exact ih _ (nodup_ids_addV acc v hacc)

lemma mergeCands_nodup (vhits khits : List Hit) :
    (idsOf (mergeCands vhits khits)).Nodup :=
  nodup_ids_foldl_addK khits _ (nodup_ids_foldl_addV vhits [] (by simp [idsOf]))

lemma addK_ne_nil (acc : List Cand) (h : Hit) : addK acc h ≠ [] := by
  rw [addK]
  by_cases hany : acc.any (fun c => c.id == h.id)
  · rw [if_pos hany]
    intro hnil
    rw [List.map_eq_nil_iff] at hnil
    subst hnil
    simp at hany
  · rw [if_neg hany]
    simp

lemma foldl_addK_ne_nil (ks : List Hit) :
    ∀ acc, acc ≠ [] → ks.foldl addK acc ≠ [] := by
  induction ks with
  | nil => intro acc hacc; exact hacc
  | cons k ks ih => intro acc _; exact ih (addK acc k) (addK_ne_nil acc k)

/-! ### The extraction step picks the first maximum -/

lemma extractMax_eq_none {f : Cand → ℝ} {l : List Cand} :
    extractMax f l = none ↔ l = [] := by
  cases l with
  | nil => simp [extractMax]
  | cons c cs =>
    cases hcs : extractMax f cs with
    | none => simp [extractMax, hcs]
    | some p =>
      obtain ⟨b, rest⟩ := p
      by_cases hf : f c < f b <;> simp [extractMax, hcs, hf]

lemma extractMax_spec {f : Cand → ℝ} : ∀ {l : List Cand} {b : Cand} {rest : List Cand},
    extractMax f l = some (b, rest) →
    ∃ l1 l2, l = l1 ++ b :: l2 ∧ rest = l1 ++ l2 ∧
      (∀ y ∈ l, f y ≤ f b) ∧ (∀ y ∈ l1, f y < f b) := by
  intro l
  induction l with
  | nil => intro b rest h; simp [extractMax] at h
  | cons c cs ih =>
    intro b rest h
    cases hcs : extractMax f cs with
    | none =>
      have hnil : cs = [] := extractMax_eq_none.1 hcs
      subst hnil
      simp only [extractMax, Option.some.injEq, Prod.mk.injEq] at h
      obtain ⟨rfl, rfl⟩ := h
      exact ⟨[], [], rfl, rfl, by simp, by simp⟩
    | some p =>
      obtain ⟨b', rest'⟩ := p
      obtain ⟨l1, l2, hdec, hrest, hmax, hstrict⟩ := ih hcs
      simp only [extractMax, hcs] at h
      by_cases hf : f c < f b'
      · rw [if_pos hf] at h
        simp only [Option.some.injEq, Prod.mk.injEq] at h
        obtain ⟨rfl, rfl⟩ := h
        refine ⟨c :: l1, l2, by simp [hdec], by simp [hrest], ?_, ?_⟩
        · intro y hy
          rcases List.mem_cons.1 hy with rfl | hy2
          · exact hf.le
          · exact hmax y hy2
        · intro y hy
          rcases List.mem_cons.1 hy with rfl | hy2
          · exact hf
          · exact hstrict y hy2
      · rw [if_neg hf] at h
        simp only [Option.some.injEq, Prod.mk.injEq] at h
        obtain ⟨rfl, rfl⟩ := h
        push_neg at hf
        refine ⟨[], cs, by simp, by simp, ?_, by simp⟩
        intro y hy
        rcases List.mem_cons.1 hy with rfl | hy2
        · exact le_rfl
        · exact le_trans (hmax y hy2) hf

/-! ### The greedy loop realizes the declarative greedy-MMR relation -/

lemma mmrGo_spec (lam : ℝ) : ∀ (n : Nat) (sel pool : List Cand),
    GreedyMMR lam n sel pool (mmrGo lam n sel pool) := by
  intro n
  induction n with
  | zero => intro sel pool; exact GreedyMMR.stop sel pool
  | succ n ih =>
    intro sel pool
    cases hE : extractMax (mmrScore lam sel) pool with
    | none =>
      have hnil : pool = [] := extractMax_eq_none.1 hE
      subst hnil
      have : mmrGo lam (n + 1) sel [] = [] := by simp only [mmrGo, hE]
      rw [this]
      exact GreedyMMR.exhausted (n + 1) sel
    | some p =>
      obtain ⟨b, rest⟩ := p
      have hMF : MaxFirst (mmrScore lam sel) pool b rest := by
        obtain ⟨l1, l2, h1, h2, h3, h4⟩ := extractMax_spec hE
        exact ⟨l1, l2, h1, h2, h3, h4⟩
      have heq : mmrGo lam (n + 1) sel pool = b :: mmrGo lam n (sel ++ [b]) rest := by
        simp only [mmrGo, hE]
      rw [heq]
      exact GreedyMMR.pick n sel pool b rest _ hMF (ih _ _)

lemma mmrGo_length (lam : ℝ) : ∀ (n : Nat) (sel pool : List Cand),
    (mmrGo lam n sel pool).length ≤ n := by
  intro n
  induction n with
  | zero => intro sel pool; simp [mmrGo]
  | succ n ih =>
    intro sel pool
    cases hE : extractMax (mmrScore lam sel) pool with
    | none => simp [mmrGo, hE]
    | some p =>
      obtain ⟨b, rest⟩ := p
      have heq : mmrGo lam (n + 1) sel pool = b :: mmrGo lam n (sel ++ [b]) rest := by
        simp only [mmrGo, hE]
      rw [heq]
      simpa using Nat.succ_le_succ (ih (sel ++ [b]) rest)

lemma mmrGo_subperm (lam : ℝ) : ∀ (n : Nat) (sel pool : List Cand),
    (mmrGo lam n sel pool).Subperm pool := by
  intro n
  induction n with
  | zero => intro sel pool; simp [mmrGo, List.nil_subperm]
  | succ n ih =>
    intro sel pool
    cases hE : extractMax (mmrScore lam sel) pool with
    | none => simp [mmrGo, hE, List.nil_subperm]
    | some p =>
      obtain ⟨b, rest⟩ := p
      have heq : mmrGo lam (n + 1) sel pool = b :: mmrGo lam n (sel ++ [b]) rest := by
        simp only [mmrGo, hE]
      rw [heq]
      obtain ⟨l1, l2, hd, hr, -, -⟩ := extractMax_spec hE
      have hperm : (b :: rest).Perm pool := by
        rw [hd, hr]
        exact List.perm_middle.symm
      exact ((List.subperm_cons b).2 (ih (sel ++ [b]) rest)).trans hperm.subperm

lemma mmrSelect_length_le_limit (lam : ℝ) (limit : Nat) (pool : List Cand) :
    (mmrSelect lam limit pool).length ≤ limit := by
  cases limit with
  | zero => simp [mmrSelect]
  | succ n =>
    cases pool with
    | nil => simp [mmrSelect]
    | cons c cs =>
      have : mmrSelect lam (n + 1) (c :: cs) = c :: mmrGo lam n [c] cs := rfl
      rw [this]
      simpa using Nat.succ_le_succ (mmrGo_length lam n [c] cs)

lemma mmrSelect_subperm (lam : ℝ) (limit : Nat) (pool : List Cand) :
    (mmrSelect lam limit pool).Subperm pool := by
  cases limit with
  | zero => simp [mmrSelect, List.nil_subperm]
  | succ n =>
    cases pool with
    | nil => simp [mmrSelect, List.nil_subperm]
    | cons c cs =>
      have : mmrSelect lam (n + 1) (c :: cs) = c :: mmrGo lam n [c] cs := rfl
      rw [this]
      exact (List.subperm_cons c).2 (mmrGo_subperm lam n [c] cs)

lemma subperm_map {α β : Type} (f : α → β) {l1 l2 : List α} (h : l1.Subperm l2) :
    (l1.map f).Subperm (l2.map f) := by
  obtain ⟨l, hp, hs⟩ := h
  exact ⟨l.map f, hp.map f, hs.map f⟩

lemma subperm_nodup {α : Type} {l1 l2 : List α} (h : l1.Subperm l2) (h2 : l2.Nodup) :
    l1.Nodup := by
  obtain ⟨l, hp, hs⟩ := h
  exact hp.nodup_iff.1 (List.Nodup.sublist hs h2)

lemma idsOf_normalizeCands (cs : List Cand) : idsOf (normalizeCands cs) = idsOf cs := by
  simp only [idsOf, normalizeCands, List.map_map]
  rfl

lemma idsOf_fuseCands (p : Params) (cs : List Cand) : idsOf (fuseCands p cs) = idsOf cs := by
  simp only [idsOf, fuseCands, List.map_map]
  rfl

lemma idsOf_decayCands (p : Params) (cs : List Cand) : idsOf (decayCands p cs) = idsOf cs := by
  simp only [idsOf, decayCands, List.map_map]
  rfl

/-- C1: for every query the final result list is at most `limit` long, at
most as long as the merged candidate set (the distinct candidates found),
and its ids are pairwise distinct — vector and keyword hits for the same id
were merged into one candidate. -/
theorem search_results_bounded (p : Params) (vres : Except String (List Hit))
    (khits : List Hit) :
    (searchPipeline p vres khits).length ≤ p.limit ∧
    (searchPipeline p vres khits).length ≤ (mergeCands (vhitsOf vres) khits).length ∧
    (idsOf (searchPipeline p vres khits)).Nodup := by
  by_cases hE : (mergeCands (vhitsOf vres) khits).isEmpty
  · have hpipe : searchPipeline p vres khits = [] := by
      simp [searchPipeline, hE]
    rw [hpipe]
    simp [idsOf]
  · have hpipe : searchPipeline p vres khits =
        mmrSelect p.mmrLambda p.limit
          (List.insertionSort decGe
            (decayCands p (fuseCands p (normalizeCands (mergeCands (vhitsOf vres) khits))))) := by
      simp [searchPipeline, hE]
    have hsub := mmrSelect_subperm p.mmrLambda p.limit
      (List.insertionSort decGe
        (decayCands p (fuseCands p (normalizeCands (mergeCands (vhitsOf vres) khits)))))
    have hperm := List.perm_insertionSort decGe
      (decayCands p (fuseCands p (normalizeCands (mergeCands (vhitsOf vres) khits))))
    refine ⟨?_, ?_, ?_⟩
    · rw [hpipe]
      exact mmrSelect_length_le_limit _ _ _
    · rw [hpipe]
      have hlen : (decayCands p (fuseCands p (normalizeCands (mergeCands (vhitsOf vres) khits)))).length
          = (mergeCands (vhitsOf vres) khits).length := by
        simp [decayCands, fuseCands, normalizeCands]
      calc (mmrSelect p.mmrLambda p.limit _).length
          ≤ _ := hsub.length_le
        _ = _ := hperm.length_eq
        _ = _ := hlen
    · rw [hpipe]
      have hnd : (idsOf (mergeCands (vhitsOf vres) khits)).Nodup := mergeCands_nodup _ _
      have hidbase : idsOf (decayCands p (fuseCands p (normalizeCands (mergeCands (vhitsOf vres) khits))))
          = idsOf (mergeCands (vhitsOf vres) khits) := by
        rw [idsOf_decayCands, idsOf_fuseCands, idsOf_normalizeCands]
      have hidperm : (idsOf (List.insertionSort decGe
          (decayCands p (fuseCands p (normalizeCands (mergeCands (vhitsOf vres) khits)))))).Perm
          (idsOf (decayCands p (fuseCands p (normalizeCands (mergeCands (vhitsOf vres) khits))))) :=
        hperm.map _
      have hndsorted : (idsOf (List.insertionSort decGe
          (decayCands p (fuseCands p (normalizeCands (mergeCands (vhitsOf vres) khits)))))).Nodup :=
        hidperm.nodup_iff.2 (hidbase ▸ hnd)
      exact subperm_nodup (subperm_map _ hsub) hndsorted

/-- C5 helper: the orchestrator's output is non-empty whenever the merged
candidate set is non-empty and the limit is positive. -/
lemma searchPipeline_ne_nil (p : Params) (vres : Except String (List Hit))
    (khits : List Hit) (hm : mergeCands (vhitsOf vres) khits ≠ [])
    (hl : 0 < p.limit) : searchPipeline p vres khits ≠ [] := by
  have hE : (mergeCands (vhitsOf vres) khits).isEmpty = false := by
    simpa [List.isEmpty_iff] using hm
  have hpipe : searchPipeline p vres khits =
      mmrSelect p.mmrLambda p.limit
        (List.insertionSort decGe
          (decayCands p (fuseCands p (normalizeCands (mergeCands (vhitsOf vres) khits))))) := by
    simp [searchPipeline, hE]
  rw [hpipe]
  have hsne : List.insertionSort decGe
      (decayCands p (fuseCands p (normalizeCands (mergeCands (vhitsOf vres) khits)))) ≠ [] := by
    intro h0
    have hlen := (List.perm_insertionSort decGe
      (decayCands p (fuseCands p (normalizeCands (mergeCands (vhitsOf vres) khits))))).length_eq
    rw [h0] at hlen
    have : (mergeCands (vhitsOf vres) khits).length = 0 := by
      simpa [decayCands, fuseCands, normalizeCands] using hlen.symm
    exact hm (List.length_eq_zero.1 this)
  obtain ⟨c, cs, hcs⟩ := List.exists_cons_of_ne_nil hsne
  obtain ⟨n, hn⟩ := Nat.exists_eq_succ_of_ne_zero hl.ne'
  rw [hcs, hn]
  have : mmrSelect p.mmrLambda (n + 1) (c :: cs) = c :: mmrGo p.mmrLambda n [c] cs := rfl
  rw [this]
  simp

/-- C5: a vector-backend error never fails the query — the pipeline treats
it exactly as an empty vector result, so the keyword-only matches are still
returned; in particular the output is non-empty whenever there are keyword
hits and the limit is positive. -/
theorem vector_error_fallback (p : Params) (e : String) (khits : List Hit) :
    searchPipeline p (Except.error e) khits = searchPipeline p (Except.ok []) khits ∧
    (0 < p.limit → khits ≠ [] → searchPipeline p (Except.error e) khits ≠ []) := by
  constructor
  · rfl
  · intro hl hk
    apply searchPipeline_ne_nil _ _ _ _ hl
    cases khits with
    | nil => exact absurd rfl hk
    | cons k ks =>
      have h0 : mergeCands (vhitsOf (Except.error e)) (k :: ks) =
          ks.foldl addK (addK [] k) := rfl
      rw [h0]
      apply foldl_addK_ne_nil
      exact addK_ne_nil [] k

/-- C5 witness: with a failing vector backend, limit 5 and one keyword hit,
the query still returns the keyword-only match instead of failing. -/
theorem vector_error_fallback_witness :
    searchPipeline ⟨5, 0.7, 0.3, 30, 0.7⟩ (Except.error "boom") [⟨1, "a", 1, 0⟩] =
      searchPipeline ⟨5, 0.7, 0.3, 30, 0.7⟩ (Except.ok []) [⟨1, "a", 1, 0⟩] ∧
    searchPipeline ⟨5, 0.7, 0.3, 30, 0.7⟩ (Except.error "boom") [⟨1, "a", 1, 0⟩] ≠ [] :=
  ⟨(vector_error_fallback ⟨5, 0.7, 0.3, 30, 0.7⟩ "boom" [⟨1, "a", 1, 0⟩]).1,
   (vector_error_fallback ⟨5, 0.7, 0.3, 30, 0.7⟩ "boom" [⟨1, "a", 1, 0⟩]).2
     (by norm_num) (by simp)⟩

/-! ### The first-maximum decomposition is unique, so greedy MMR is deterministic -/

lemma mem_of_earlier {α : Type} {x y : α} : ∀ (a1 c1 a2 c2 : List α),
    a1 ++ x :: a2 = c1 ++ y :: c2 → a1.length < c1.length → x ∈ c1 := by
  intro a1
  induction a1 with
  | nil =>
    intro c1 a2 c2 h hlen
    cases c1 with
    | nil => simp at hlen
    | cons z c1' =>
      simp only [List.nil_append, List.cons_append, List.cons.injEq] at h
      exact h.1 ▸ List.mem_cons_self _ _
  | cons a a1' ih =>
    intro c1 a2 c2 h hlen
    cases c1 with
    | nil => simp at hlen
    | cons z c1' =>
      simp only [List.cons_append, List.cons.injEq] at h
      have hlt : a1'.length < c1'.length := by
        simp only [List.length_cons] at hlen
        omega
      exact List.mem_cons_of_mem _ (ih c1' a2 c2 h.2 hlt)

lemma maxFirst_unique {f : Cand → ℝ} {pool : List Cand} {b1 b2 : Cand}
    {r1 r2 : List Cand} (h1 : MaxFirst f pool b1 r1) (h2 : MaxFirst f pool b2 r2) :
    b1 = b2 ∧ r1 = r2 := by
  obtain ⟨a1, a2, hd1, hr1, hm1, hs1⟩ := h1
  obtain ⟨c1, c2, hd2, hr2, hm2, hs2⟩ := h2
  have heq : a1 ++ b1 :: a2 = c1 ++ b2 :: c2 := hd1.symm.trans hd2
  have hb2mem : b2 ∈ pool := by
    rw [hd2]
    exact List.mem_append.2 (Or.inr (List.mem_cons_self _ _))
  have hb1mem : b1 ∈ pool := by
    rw [hd1]
    exact List.mem_append.2 (Or.inr (List.mem_cons_self _ _))
  have hlen : a1.length = c1.length := by
    by_contra hne
    rcases Nat.lt_or_ge a1.length c1.length with hlt | hge
    · have hmem : b1 ∈ c1 := mem_of_earlier a1 c1 a2 c2 heq hlt
      have hx1 := hs2 b1 hmem
      have hx2 := hm1 b2 hb2mem
      linarith
    · have hlt : c1.length < a1.length := lt_of_le_of_ne hge (fun hx => hne hx.symm)
      have hmem : b2 ∈ a1 := mem_of_earlier c1 a1 c2 a2 heq.symm hlt
      have hx1 := hs1 b2 hmem
      have hx2 := hm2 b1 hb1mem
      linarith
  obtain ⟨ha, hb⟩ := List.append_inj heq hlen
  have hbb : b1 = b2 ∧ a2 = c2 := by
    simpa using hb
  exact ⟨hbb.1, by rw [hr1, hr2, ha, hbb.2]⟩

lemma greedyMMR_det {lam : ℝ} {n : Nat} {sel pool o1 : List Cand}
    (h1 : GreedyMMR lam n sel pool o1) :
    ∀ {o2 : List Cand}, GreedyMMR lam n sel pool o2 → o1 = o2 := by
  induction h1 with
  | stop sel pool =>
    intro o2 h2
    cases h2 with
    | stop _ _ => rfl
    | exhausted _ _ => rfl
  | exhausted n sel =>
    intro o2 h2
    cases h2 with
    | stop _ _ => rfl
    | exhausted _ _ => rfl
    | pick n' s' p' b rest out hMF hrun =>
      obtain ⟨l1, l2, hd, -, -, -⟩ := hMF
      exact absurd hd (by simp)
  | pick n sel pool b rest out hMF hrun ih =>
    intro o2 h2
    cases h2 with
    | exhausted _ _ =>
      obtain ⟨l1, l2, hd, -, -, -⟩ := hMF
      exact absurd hd (by simp)
    | pick n2 s2 p2 b2 rest2 out2 hMF2 hrun2 =>
      obtain ⟨hb, hr⟩ := maxFirst_unique hMF hMF2
      subst hb
      subst hr
      rw [ih hrun2]

/-- C7: on a pool sorted by decayed score descending, the diversity
re-ranker satisfies the greedy MMR contract — the first pick is the pool's
head, a candidate of maximal decayed score, and each subsequent pick is the
first-encountered candidate maximizing the MMR objective against the
already-selected items — and that contract determines the output uniquely,
so ties break in favor of the first-encountered candidate and the output is
deterministic. -/
theorem mmr_select_greedy (lam : ℝ) (limit : Nat) (pool : List Cand)
    (hsort : List.Sorted decGe pool) :
    SelSpec lam limit pool (mmrSelect lam limit pool) ∧
    (∀ o1 o2, SelSpec lam limit pool o1 → SelSpec lam limit pool o2 → o1 = o2) := by
  constructor
  · cases limit with
    | zero =>
      left
      exact ⟨Or.inr rfl, by cases pool <;> rfl⟩
    | succ n =>
      cases pool with
      | nil => left; exact ⟨Or.inl rfl, rfl⟩
      | cons c cs =>
        right
        refine ⟨n, c, cs, mmrGo lam n [c] cs, rfl, rfl, rfl, ?_, mmrGo_spec lam n [c] cs⟩
        intro y hy
        rcases List.mem_cons.1 hy with rfl | hy2
        · exact le_rfl
        · exact (List.sorted_cons.1 hsort).1 y hy2
  · intro o1 o2 h1 h2
    rcases h1 with ⟨hc1, rfl⟩ | ⟨n1, c1, cs1, r1, hl1, hp1, ho1, -, hg1⟩
    · rcases h2 with ⟨hc2, rfl⟩ | ⟨n2, c2, cs2, r2, hl2, hp2, ho2, -, hg2⟩
      · rfl
      · rcases hc1 with hpool | hlim
        · rw [hpool] at hp2; cases hp2
        · rw [hlim] at hl2; cases hl2
    · rcases h2 with ⟨hc2, rfl⟩ | ⟨n2, c2, cs2, r2, hl2, hp2, ho2, -, hg2⟩
      · rcases hc2 with hpool | hlim
        · rw [hpool] at hp1; cases hp1
        · rw [hlim] at hl1; cases hl1
      · rw [hp1] at hp2
        injection hp2 with hcc hcs
        have hnn : n1 = n2 := by
          rw [hl1] at hl2
          omega
        subst hcc
        subst hcs
        subst hnn
        rw [ho1, ho2, greedyMMR_det hg1 hg2]

/-- C7 witness: the sortedness hypothesis holds at a concrete one-element
pool. -/
theorem mmr_select_greedy_witness :
    SelSpec 0.7 1 [⟨1, "a", 0, 0, 0, 0, 0, 0, 0⟩]
      (mmrSelect 0.7 1 [⟨1, "a", 0, 0, 0, 0, 0, 0, 0⟩]) ∧
    (∀ o1 o2, SelSpec 0.7 1 [⟨1, "a", 0, 0, 0, 0, 0, 0, 0⟩] o1 →
      SelSpec 0.7 1 [⟨1, "a", 0, 0, 0, 0, 0, 0, 0⟩] o2 → o1 = o2) :=
  mmr_select_greedy 0.7 1 [⟨1, "a", 0, 0, 0, 0, 0, 0, 0⟩]
    (List.sorted_singleton _)

/-! ### Keyword index rebuild -/

lemma upsertIdx_nodup (idx : List IdxEntry) (e : IdxEntry)
    (h : (idx.map (fun x => x.id)).Nodup) :
    ((upsertIdx idx e).map (fun x => x.id)).Nodup := by
  rw [upsertIdx, List.map_append, List.nodup_append]
  refine ⟨List.Nodup.sublist (List.Sublist.map _ (List.filter_sublist idx)) h, by simp, ?_⟩
  intro x hx hx2
  have hxe : x = e.id := by simpa using hx2
  rw [List.mem_map] at hx
  obtain ⟨y, hy, hyid⟩ := hx
  rw [List.mem_filter] at hy
  have hne : y.id ≠ e.id := by simpa using hy.2
  exact hne (hyid.trans hxe)

lemma rebuildIdx_nodup (rows idx : List IdxEntry) :
    ((rebuildIdx rows idx).map (fun e => e.id)).Nodup := by
  rw [rebuildIdx]
  suffices h : ∀ acc : List IdxEntry, (acc.map (fun x => x.id)).Nodup →
      ((rows.foldl upsertIdx acc).map (fun x => x.id)).Nodup by
    exact h [] (by simp)
  induction rows with
  | nil => intro acc hacc; exact hacc
  | cons r rs ih => intro acc hacc; exact ih _ (upsertIdx_nodup acc r hacc)

/-- C4: rebuilding the keyword index is idempotent — a second rebuild with
no intervening writes produces the same index state, the same indexed
count, and the same results for every query — the returned value is the
count of indexed entries, and a rebuilt index holds no duplicate ids. -/
theorem rebuild_index_idempotent (rows idx : List IdxEntry) :
    rebuildIdx rows (rebuildIdx rows idx) = rebuildIdx rows idx ∧
    rebuildCount rows (rebuildIdx rows idx) = rebuildCount rows idx ∧
    (∀ q lim, queryIdx (rebuildIdx rows (rebuildIdx rows idx)) q lim =
        queryIdx (rebuildIdx rows idx) q lim) ∧
    rebuildCount rows idx = (rebuildIdx rows idx).length ∧
    ((rebuildIdx rows idx).map (fun e => e.id)).Nodup :=
  ⟨rfl, rfl, fun _ _ => rfl, rfl, rebuildIdx_nodup rows idx⟩

end Engine

namespace Setup

/-! ### Dry runs change nothing -/

/-- C8: with `dry_run` set, the four installation-step functions named in
the claim perform no filesystem change and launch no subprocess, and they
return success, given `.env` exists (precondition of `set_user_id`) and the
settings file exists and is handled by one of `update_stop_hook`'s three
branches (advanced command present, basic command present, or parseable
JSON). -/
theorem dry_run_frame {σ : Type} (w : World) (pipOk : Bool) (uid : List Char)
    (parse : List Char → Option σ) (dump : σ → List Char) (addHook : σ → σ)
    (henv : w.envFile.isSome = true)
    (hset : ∃ sc, w.settingsFile = some sc ∧
        (containsL sc advancedCmd = true ∨ containsL sc basicCmd = true ∨
          (parse sc).isSome = true)) :
    installPackages pipOk true w = (true, w, []) ∧
    createDirectories true w = (true, w, []) ∧
    setUserId uid true w = (true, w, []) ∧
    updateStopHook parse dump addHook true w = (true, w, []) := by
  refine ⟨rfl, rfl, ?_, ?_⟩
  · obtain ⟨c, hc⟩ := Option.isSome_iff_exists.1 henv
    simp [setUserId, hc]
  · obtain ⟨sc, hsc, hcases⟩ := hset
    rcases hcases with h1 | h2 | h3
    · simp [updateStopHook, hsc, h1]
    · by_cases h1 : containsL sc advancedCmd
      · simp [updateStopHook, hsc, h1]
      · simp [updateStopHook, hsc, h1, h2]
    · by_cases h1 : containsL sc advancedCmd
      · simp [updateStopHook, hsc, h1]
      · by_cases h2 : containsL sc basicCmd
        · simp [updateStopHook, hsc, h1, h2]
        · obtain ⟨s, hs⟩ := Option.isSome_iff_exists.1 h3
          simp [updateStopHook, hsc, h1, h2, hs]

/-- C8 witness: the preconditions hold at a concrete world whose settings
file contains the basic hook command. -/
theorem dry_run_frame_witness :
    installPackages true true ⟨some "X=1".data, none, some basicCmd, [], []⟩ =
      (true, ⟨some "X=1".data, none, some basicCmd, [], []⟩, []) ∧
    createDirectories true ⟨some "X=1".data, none, some basicCmd, [], []⟩ =
      (true, ⟨some "X=1".data, none, some basicCmd, [], []⟩, []) ∧
    setUserId "jane".data true ⟨some "X=1".data, none, some basicCmd, [], []⟩ =
      (true, ⟨some "X=1".data, none, some basicCmd, [], []⟩, []) ∧
    updateStopHook (fun _ => some ()) (fun _ => []) (fun s => s) true
        ⟨some "X=1".data, none, some basicCmd, [], []⟩ =
      (true, ⟨some "X=1".data, none, some basicCmd, [], []⟩, []) :=
  dry_run_frame ⟨some "X=1".data, none, some basicCmd, [], []⟩ true "jane".data
    (fun _ => some ()) (fun _ => []) (fun s => s) rfl
    ⟨basicCmd, rfl, Or.inr (Or.inl (by decide))⟩

/-! ### Failed pre-flight checks exit before any installation step -/

/-- C9: when any pre-flight check fails — Python below 3.9, a required
memory script missing, or a required API key absent from `.env` — `main`
exits with status 1 with the world (every file and directory) unmodified
and no subprocess launched, before any installation step runs. -/
theorem preflight_failure_exits {σ : Type} (ver : Nat × Nat) (args : Args)
    (stdin : List Char) (pipOk : Bool) (rc : Option Int)
    (parse : List Char → Option σ) (dump : σ → List Char) (addHook : σ → σ)
    (w : World)
    (hfail : pyVerOk ver.1 ver.2 = false ∨ checkScriptsExist w = false ∨
      checkEnvVars w = false) :
    mainRun ver args stdin pipOk rc parse dump addHook w = (1, w, []) := by
  rcases hfail with h | h | h
  · simp [mainRun, h]
  · by_cases h1 : pyVerOk ver.1 ver.2
    · simp [mainRun, h1, h]
    · simp [mainRun, h1]
  · by_cases h1 : pyVerOk ver.1 ver.2
    · by_cases h2 : checkScriptsExist w
      · simp [mainRun, h1, h2, h]
      · simp [mainRun, h1, h2]
    · simp [mainRun, h1]

/-- C9 witness: Python 3.8 fails the version check, so `main` exits with
status 1 leaving the concrete world untouched. -/
theorem preflight_failure_exits_witness :
    mainRun (3, 8) ⟨some "u".data, "i".data, false, false⟩ [] true none
      (fun _ => some ()) (fun _ : Unit => []) (fun s => s)
      ⟨none, none, none, [], []⟩ =
      (1, ⟨none, none, none, [], []⟩, []) :=
  preflight_failure_exits (3, 8) ⟨some "u".data, "i".data, false, false⟩ [] true none
    (fun _ => some ()) (fun _ : Unit => []) (fun s => s)
    ⟨none, none, none, [], []⟩ (Or.inl (by decide))

/-! ### The .env rewrite performed by set_user_id -/

lemma splitLinesAux_no_nl : ∀ (cs acc : List Char), '\n' ∉ acc →
    ∀ l ∈ splitLinesAux cs acc, '\n' ∉ l := by
  intro cs
  induction cs with
  | nil =>
    intro acc hacc l hl
    simp only [splitLinesAux, List.mem_singleton] at hl
    subst hl
    exact fun h => hacc (List.mem_reverse.1 h)
  | cons c rest ih =>
    intro acc hacc l hl
    rw [splitLinesAux] at hl
    by_cases hc : c = '\n'
    · rw [if_pos hc] at hl
      rcases List.mem_cons.1 hl with rfl | hl2
      · exact fun h => hacc (List.mem_reverse.1 h)
      · by_cases hr : rest.isEmpty
        · rw [if_pos hr] at hl2; cases hl2
        · rw [if_neg hr] at hl2
          exact ih [] (by simp) l hl2
    · rw [if_neg hc] at hl
      refine ih (c :: acc) ?_ l hl
      intro hmem
      rcases List.mem_cons.1 hmem with heq | hmem2
      · exact hc heq.symm
      · exact hacc hmem2

lemma splitLines_no_nl (cs : List Char) : ∀ l ∈ splitLines cs, '\n' ∉ l := by
  rw [splitLines]
  by_cases h : cs.isEmpty
  · simp [h]
  · rw [if_neg h]
    exact splitLinesAux_no_nl cs [] (by simp)

lemma splitLinesAux_append_nl {l : List Char} (hl : '\n' ∉ l) :
    ∀ (acc rest : List Char), splitLinesAux (l ++ '\n' :: rest) acc =
      (acc.reverse ++ l) :: (if rest.isEmpty then [] else splitLinesAux rest []) := by
  induction l with
  | nil => intro acc rest; simp [splitLinesAux]
  | cons c l' ih =>
    intro acc rest
    have hc : ¬(c = '\n') := fun h => hl (by rw [h]; exact List.mem_cons_self _ _)
    rw [List.cons_append, splitLinesAux, if_neg hc,
      ih (fun h => hl (List.mem_cons_of_mem _ h)) (c :: acc) rest]
    simp

lemma splitLines_joinNL : ∀ (M : List (List Char)), M ≠ [] →
    (∀ l ∈ M, '\n' ∉ l) → splitLines (joinNL M ++ ['\n']) = M := by
  intro M
  induction M with
  | nil => intro h; exact absurd rfl h
  | cons l M' ih =>
    intro _ hnl
    cases M' with
    | nil =>
      have h1 : joinNL [l] = l := rfl
      rw [h1, splitLines, if_neg (by simp)]
      have h2 : l ++ ['\n'] = l ++ '\n' :: [] := rfl
      rw [h2, splitLinesAux_append_nl (hnl l (List.mem_cons_self _ _))]
      simp
    | cons l2 M'' =>
      have h1 : joinNL (l :: l2 :: M'') = l ++ '\n' :: joinNL (l2 :: M'') := rfl
      rw [h1]
      have h2 : (l ++ '\n' :: joinNL (l2 :: M'')) ++ ['\n'] =
          l ++ '\n' :: (joinNL (l2 :: M'') ++ ['\n']) := by simp
      rw [h2, splitLines, if_neg (by simp)]
      rw [splitLinesAux_append_nl (hnl l (List.mem_cons_self _ _))]
      have h3 : (joinNL (l2 :: M'') ++ ['\n']).isEmpty = false := by
        rw [List.isEmpty_eq_false_iff_exists_mem]
        exact ⟨'\n', by simp⟩
      rw [h3]
      simp only [List.reverse_nil, List.nil_append, if_neg (Bool.false_ne_true ∘ id)]
      have h4 : splitLinesAux (joinNL (l2 :: M'') ++ ['\n']) [] =
          splitLines (joinNL (l2 :: M'') ++ ['\n']) := by
        rw [splitLines, if_neg (by simp [h3])]
      rw [h4, ih (by simp) (fun x hx => hnl x (List.mem_cons_of_mem _ hx))]

lemma joinNL_blank_comment (x y : List Char) :
    ∀ M : List (List Char), joinNL (M ++ ['\n' :: x, y]) = joinNL (M ++ [[], x, y]) := by
  intro M
  induction M with
  | nil => simp [joinNL]
  | cons l M' ih =>
    cases M' with
    | nil => simp [joinNL]
    | cons l2 M'' =>
      have h1 : joinNL ((l :: l2 :: M'') ++ ['\n' :: x, y]) =
          l ++ '\n' :: joinNL ((l2 :: M'') ++ ['\n' :: x, y]) := rfl
      have h2 : joinNL ((l :: l2 :: M'') ++ [[], x, y]) =
          l ++ '\n' :: joinNL ((l2 :: M'') ++ [[], x, y]) := rfl
      rw [h1, h2, ih]

/-- C10: a successful non-dry-run `set_user_id` returns success, launches
nothing, and rewrites `.env` so that — at the level of its lines — every
line whose stripped form starts with `MEM0_USER_ID=` or `# MEM0_USER_ID=`
is replaced by `MEM0_USER_ID=<user_id>` while all other lines are
preserved unchanged and in order, and when no such line existed the
original lines are kept and a blank line, an explanatory comment and the
assignment are appended, the assignment ending the file. -/
theorem set_user_id_rewrite (w : World) (content uid : List Char)
    (hw : w.envFile = some content) (huid : '\n' ∉ uid) :
    (setUserId uid false w).1 = true ∧
    (setUserId uid false w).2.1 = { w with envFile := some (setUserIdContent content uid) } ∧
    (setUserId uid false w).2.2 = [] ∧
    splitLines (setUserIdContent content uid) =
      (if (splitLines content).any isUserIdLine then
        (splitLines content).map (fun l => if isUserIdLine l then userIdAssign uid else l)
      else
        splitLines content ++ [[], userIdComment, userIdAssign uid]) := by
  have hassign : '\n' ∉ userIdAssign uid := by
    intro hmem
    rcases List.mem_append.1 hmem with h1 | h2
    · revert h1; decide
    · exact huid h2
  refine ⟨by simp [setUserId, hw], by simp [setUserId, hw], by simp [setUserId, hw], ?_⟩
  rw [setUserIdContent]
  by_cases hfound : (splitLines content).any isUserIdLine
  · rw [if_pos hfound, if_pos hfound]
    apply splitLines_joinNL
    · intro hnil
      rw [List.map_eq_nil_iff] at hnil
      rw [hnil] at hfound
      simp at hfound
    · intro l hl
      rw [List.mem_map] at hl
      obtain ⟨l0, hl0, rfl⟩ := hl
      by_cases ht : isUserIdLine l0
      · rw [if_pos ht]; exact hassign
      · rw [if_neg ht]; exact splitLines_no_nl content l0 hl0
  · rw [if_neg hfound, if_neg hfound]
    rw [joinNL_blank_comment userIdComment (userIdAssign uid) (splitLines content)]
    apply splitLines_joinNL
    · simp
    · intro l hl
      rcases List.mem_append.1 hl with h1 | h2
      · exact splitLines_no_nl content l h1
      · simp only [List.mem_cons, List.not_mem_nil, or_false] at h2
        rcases h2 with rfl | rfl | rfl
        · simp
        · decide
        · exact hassign

/-- C10 witness: the hypotheses hold at a concrete `.env` with no existing
`MEM0_USER_ID` line. -/
theorem set_user_id_rewrite_witness :
    (setUserId "jane".data false ⟨some "A=1".data, none, none, [], []⟩).1 = true ∧
    (setUserId "jane".data false ⟨some "A=1".data, none, none, [], []⟩).2.1 =
      { (⟨some "A=1".data, none, none, [], []⟩ : World) with
          envFile := some (setUserIdContent "A=1".data "jane".data) } ∧
    (setUserId "jane".data false ⟨some "A=1".data, none, none, [], []⟩).2.2 = [] ∧
    splitLines (setUserIdContent "A=1".data "jane".data) =
      (if (splitLines "A=1".data).any isUserIdLine then
        (splitLines "A=1".data).map
          (fun l => if isUserIdLine l then userIdAssign "jane".data else l)
      else
        splitLines "A=1".data ++ [[], userIdComment, userIdAssign "jane".data]) :=
  set_user_id_rewrite ⟨some "A=1".data, none, none, [], []⟩ "A=1".data "jane".data
    rfl (by decide)

end Setup
